import Mathlib

/-!
# Verification of `branch.cpp` (libbitcoin-blockchain candidate branch)

Shallow embedding of `src/pools/branch.cpp`.  The branch is an in-memory
sequence of blocks extending a fork point of the persisted chain.  The
external chain types (`hash_digest`, `chain::output`, `chain::output_point`,
`chain::input`, `chain::transaction`, `chain::block`) come from the
libbitcoin base library and are modelled minimally from the spec: hashes are
abstract naturals, transaction/block hashes and block proof values are
abstract fields (never recomputed here), and the sentinel encodings of the
external library ("invalid output" for a missing prevout cache,
`max_size_t` for an unspecified height) are modelled as `Option`, matching
the spec's description of an explicit "not found" marker and of a height
"unset (distinct from zero)".
-/

set_option autoImplicit false

namespace BranchSpec

/-- Hashes (`hash_digest`) are abstract; only equality is ever used. -/
abbrev Hash := Nat

/-- `null_hash`: the all-zero hash sentinel. -/
def null_hash : Hash := 0

/-- Modelled from the spec: `chain::point::null_index` is the maximal
32-bit value, marking a coinbase input's (null) previous output. -/
def null_index : Nat := 2 ^ 32 - 1

/-- Block header fields read by the branch code. -/
structure Header where
  previous_block_hash : Hash
  bits : Nat
  version : Nat
  timestamp : Nat
deriving DecidableEq

/-- Modelled from the spec: a transaction output is a value plus a
spending script ("the resolved output (value + spending script)"). -/
structure Output where
  value : Nat
  script : List Nat
deriving DecidableEq

/-- An output reference: id of the creating transaction plus output index. -/
structure OutPoint where
  hash : Hash
  index : Nat
deriving DecidableEq

/-- Modelled from the spec: the null coinbase marker — null hash together
with the null (maximal 32-bit) index. -/
def OutPoint.is_null (p : OutPoint) : Bool :=
  p.hash == null_hash && p.index == null_index

/-- A transaction input; the branch code only reads its previous output. -/
structure Input where
  previous_output : OutPoint
deriving DecidableEq

/-- A transaction: abstract id, inputs and outputs. -/
structure Transaction where
  hash : Hash
  inputs : List Input
  outputs : List Output
deriving DecidableEq

/-- A block: abstract hash, header, transactions, and its claimed
proof-of-work value (`block->proof()`, a `uint256_t`, kept abstract). -/
structure Block where
  hash : Hash
  header : Header
  transactions : List Transaction
  proof : Nat
deriving DecidableEq

/-- Default block used as the `List.getD` fallback in statements. -/
def block0 : Block := ⟨0, ⟨0, 0, 0, 0⟩, [], 0⟩

/-- Default transaction used as the `List.getD` fallback in statements. -/
def tx0 : Transaction := ⟨0, [], []⟩

/-- Default output used as the `List.getD` fallback in statements. -/
def out0 : Output := ⟨0, []⟩

/-- The validation fields the branch writes on a query's `outpoint.validation`:
`cache`/`height` by `populate_prevout`, `spent`/`confirmed` by
`populate_spent`.  `cache = none` models the invalid-output "not found"
sentinel; `height = none` models the `not_specified` sentinel. -/
structure Validation where
  cache : Option Output
  height : Option Nat
  spent : Bool
  confirmed : Bool
deriving DecidableEq

/-- The branch: fork-point height `height_` plus the ordered block list
`blocks_` (index 0 is the oldest block, the last element is the tip). -/
structure Branch where
  height_ : Nat
  blocks_ : List Block
deriving DecidableEq

namespace Branch

/-- `branch::branch(size_t height)`: empty branch anchored at `height`. -/
def new (height : Nat) : Branch := ⟨height, []⟩

/-- `branch::set_height`. -/
def set_height (br : Branch) (height : Nat) : Branch := { br with height_ := height }

/-- `branch::empty`. -/
def empty (br : Branch) : Bool := br.blocks_.isEmpty

/-- `branch::size`. -/
def size (br : Branch) : Nat := br.blocks_.length

/-- `branch::height`. -/
def height (br : Branch) : Nat := br.height_

/-- The `linked` lambda of `branch::push_front`: the current oldest block's
declared previous-block hash equals the candidate block's hash. -/
def linked (br : Branch) (block : Block) : Bool :=
  match br.blocks_ with
  | [] => false
  | front :: _ => front.header.previous_block_hash == block.hash

/-- `branch::push_front`: insert at the oldest end when the branch is empty
or the candidate links; otherwise leave the branch unchanged and report
failure through the boolean. -/
def push_front (br : Branch) (block : Block) : Branch × Bool :=
  if br.empty || br.linked block then
    ({ br with blocks_ := block :: br.blocks_ }, true)
  else
    (br, false)

/-- `branch::top`: the tip block (last element), or none when empty. -/
def top (br : Branch) : Option Block := br.blocks_.getLast?

/-- `branch::top_height`. -/
def top_height (br : Branch) : Nat := br.height + br.size

/-- `branch::hash`: previous-block hash of the oldest block, else null. -/
def hash (br : Branch) : Hash :=
  match br.blocks_ with
  | [] => null_hash
  | front :: _ => front.header.previous_block_hash

/-- `branch::fork_point`: the (hash, height) checkpoint pair. -/
def fork_point (br : Branch) : Hash × Nat := (br.hash, br.height)

/-- `branch::index_of`: `(height - height_) - 1`.  Modelled from the spec:
`safe_subtract` uses checked subtraction flooring at 0 on underflow, which
is `Nat` truncated subtraction. -/
def index_of (br : Branch) (height : Nat) : Nat :=
  height - br.height_ - 1

/-- `branch::height_at`: `(index + height_) + 1`.  Modelled from the spec:
`safe_add` is checked addition; `Nat` addition never wraps. -/
def height_at (br : Branch) (index : Nat) : Nat :=
  index + br.height_ + 1

/-- The `uint256_t` modulus: wide accumulation wraps at `2 ^ 256`. -/
def uint256_mod : Nat := 2 ^ 256

/-- `branch::work`: accumulate each block's claimed proof value into a
`uint256_t` total (addition modulo `2 ^ 256`). -/
def work (br : Branch) : Nat :=
  br.blocks_.foldl (fun total b => (total + b.proof) % uint256_mod) 0

/-- `branch::populate_spent`: with fewer than two blocks report
unspent/unconfirmed; otherwise scan every block except the oldest
(`blocks_->begin() + 1`), and within each such block every transaction
except the first (`txs.begin() + 1`), for an input whose previous output
equals the queried outpoint; `confirmed` is assigned from `spent`. -/
def populate_spent (br : Branch) (p : OutPoint) (v : Validation) : Validation :=
  if br.size < 2 then
    { v with spent := false, confirmed := false }
  else
    let spent := (br.blocks_.drop 1).any fun b =>
      (b.transactions.drop 1).any fun tx =>
        tx.inputs.any fun inp => decide (inp.previous_output = p)
    { v with spent := spent, confirmed := spent }

end Branch

/-- The match condition of `populate_prevout`'s inner scan:
`outpoint.hash() == tx.hash() && outpoint.index() < tx.outputs().size()`. -/
def tx_match (p : OutPoint) (tx : Transaction) : Prop :=
  p.hash = tx.hash ∧ p.index < tx.outputs.length

instance tx_match.instDec (p : OutPoint) (tx : Transaction) :
    Decidable ( tx_match p tx) := by
  unfold tx_match; infer_instance

/-- The inner loop of `get_output` in `populate_prevout`: scan the
transactions of one block in forward order, returning the position of the
first transaction whose id matches with the referenced index in range,
together with the referenced output. -/
def find_output_in_txs (p : OutPoint) :
    List Transaction → Nat → Option (Nat × Output)
  | [], _ => none
  | tx :: rest, position =>
    if tx_match p tx then
      some (position, tx.outputs.getD p.index out0)
    else
      find_output_in_txs p rest (position + 1)

/-- The result record of the `get_output` lambda in `populate_prevout`:
absolute height of the containing block, position of the transaction in
that block, and the referenced output. -/
structure FindResult where
  height : Nat
  position : Nat
  out : Output
deriving DecidableEq

/-- The outer (reverse) loop of `get_output`: blocks are scanned from the
tip (newest, last element) backward; `index` is the branch-relative index
of the head of the remaining list.  Later (newer) blocks take priority,
exactly as the source's `index = count - forward - 1` loop. -/
def find_output_from (br : Branch) (p : OutPoint) :
    Nat → List Block → Option FindResult
  | _, [] => none
  | index, b :: rest =>
    match find_output_from br p (index + 1) rest with
    | some r => some r
    | none =>
      match find_output_in_txs p b.transactions 0 with
      | some (position, out) => some ⟨br.height_at index, position, out⟩
      | none => none

namespace Branch

/-- The `get_output` lambda of `branch::populate_prevout`: reverse search
(because of BIP30) over the whole branch; `none` models the sentinel
default `result` whose output `is_valid()` is false. -/
def get_output (br : Branch) (p : OutPoint) : Option FindResult :=
  find_output_from br p 0 br.blocks_

/-- `branch::populate_prevout`: reset `cache` and `height`, return at once
for the null coinbase marker, otherwise search; on a find, record the
output and set the height iff the match is the block's first transaction. -/
def populate_prevout (br : Branch) (p : OutPoint) (v : Validation) : Validation :=
  let v0 : Validation := { v with cache := none, height := none }
  if p.is_null then v0
  else
    match br.get_output p with
    | none => v0
    | some finder =>
      { v0 with
        cache := some finder.out,
        height := if finder.position = 0 then some finder.height else none }

/-- `branch::get_bits`: fail below or at the fork height and when the
translated index has no block; else return the header's bits. -/
def get_bits (br : Branch) (out_bits : Nat) (height : Nat) : Nat × Bool :=
  if height ≤ br.height_ then (out_bits, false)
  else
    match br.blocks_.get? (br.index_of height) with
    | none => (out_bits, false)
    | some b => (b.header.bits, true)

/-- `branch::get_version`: as `get_bits`, for the header version. -/
def get_version (br : Branch) (out_version : Nat) (height : Nat) : Nat × Bool :=
  if height ≤ br.height_ then (out_version, false)
  else
    match br.blocks_.get? (br.index_of height) with
    | none => (out_version, false)
    | some b => (b.header.version, true)

/-- `branch::get_timestamp`: as `get_bits`, for the header timestamp. -/
def get_timestamp (br : Branch) (out_timestamp : Nat) (height : Nat) : Nat × Bool :=
  if height ≤ br.height_ then (out_timestamp, false)
  else
    match br.blocks_.get? (br.index_of height) with
    | none => (out_timestamp, false)
    | some b => (b.header.timestamp, true)

/-- `branch::get_block_hash`: as `get_bits`, for the block hash. -/
def get_block_hash (br : Branch) (out_hash : Hash) (height : Nat) : Hash × Bool :=
  if height ≤ br.height_ then (out_hash, false)
  else
    match br.blocks_.get? (br.index_of height) with
    | none => (out_hash, false)
    | some b => (b.hash, true)

end Branch

/-- Branch states reachable from `new(fork_height)` by the mutating
operations (`push_front` growth and `set_height`). -/
inductive Reachable : Branch → Prop where
  | base (h : Nat) : Reachable (Branch.new h)
  | grow (br : Branch) (b : Block) : Reachable br → Reachable (br.push_front b).fst
  | set (br : Branch) (h : Nat) : Reachable br → Reachable (br.set_height h)

/-! Concrete fixtures used to evaluate the theorems at explicit inputs. -/

/-- Example output created by the tip block's transaction. -/
def exOut : Output := ⟨7, [2]⟩

/-- Example output created by the older block's transaction (same txid). -/
def exOutOld : Output := ⟨5, [9]⟩

/-- Tip-block transaction with id 99. -/
def exTxTip : Transaction := ⟨99, [], [exOut]⟩

/-- Older-block transaction sharing id 99 but with a different output. -/
def exTxOld : Transaction := ⟨99, [], [exOutOld]⟩

/-- Older block (hash 10), holding `exTxOld`; claimed proof `2 ^ 255`. -/
def exBlockOld : Block := ⟨10, ⟨3, 21, 31, 41⟩, [exTxOld], 2 ^ 255⟩

/-- Tip block (hash 11) linking to the older block; proof `2 ^ 255`. -/
def exBlockTip : Block := ⟨11, ⟨10, 22, 32, 42⟩, [exTxTip], 2 ^ 255⟩

/-- A two-block branch above fork height 5: `[exBlockOld, exBlockTip]`. -/
def exBranch : Branch := ⟨5, [exBlockOld, exBlockTip]⟩

/-- Query for output 0 of transaction id 99. -/
def exPoint : OutPoint := ⟨99, 0⟩

/-- The null coinbase marker as a concrete outpoint. -/
def exNullPoint : OutPoint := ⟨null_hash, null_index⟩

/-- A "dirty" prior validation state, to exercise the unconditional reset. -/
def exValidation : Validation := ⟨some ⟨123, [4]⟩, some 77, true, true⟩

/-- Outpoint spent inside the example spending branch. -/
def exSpendPoint : OutPoint := ⟨42, 1⟩

/-- Non-coinbase transaction spending `exSpendPoint`. -/
def exTxSpend : Transaction := ⟨55, [⟨exSpendPoint⟩], []⟩

/-- Tip block containing the spending transaction at position 1. -/
def exBlockTipSpend : Block := ⟨11, ⟨10, 22, 32, 42⟩, [exTxTip, exTxSpend], 0⟩

/-- Two-block branch whose tip spends `exSpendPoint`. -/
def exBranchSpend : Branch := ⟨5, [exBlockOld, exBlockTipSpend]⟩

/-- A block (hash 3) that links below `exBlockOld`. -/
def exBlockExt : Block := ⟨3, ⟨1, 20, 30, 40⟩, [], 0⟩

/-- A block (hash 999) that links to nothing in the examples. -/
def exBlockBad : Block := ⟨999, ⟨0, 0, 0, 0⟩, [], 0⟩

/-! ## Characterization of the prevout search -/

theorem list_getD_eq_get {α : Type} (l : List α) (d : α) (k : Nat)
    (hk : k < l.length) : l.getD k d = l.get ⟨k, hk⟩ := by
  simp [List.getD_eq_getElem?_getD, List.getElem?_eq_getElem hk, List.get_eq_getElem]

theorem find_output_in_txs_eq_none (p : OutPoint) (l : List Transaction)
    (hnone : ∀ tx ∈ l, ¬ tx_match p tx) (n : Nat) :
    find_output_in_txs p l n = none := by
  induction l generalizing n with
  | nil => rfl
  | cons tx rest ih =>
    have h := hnone tx (List.mem_cons_self tx rest)
    simp only [find_output_in_txs, if_neg h]
    exact ih (fun t ht => hnone t (List.mem_cons_of_mem tx ht)) (n + 1)

theorem find_output_in_txs_first (p : OutPoint) (l : List Transaction)
    (hsome : ∃ tx ∈ l, tx_match p tx) :
    ∃ pos, pos < l.length ∧ tx_match p (l.getD pos tx0) ∧
      (∀ q, q < pos → ¬ tx_match p (l.getD q tx0)) ∧
      ∀ n, find_output_in_txs p l n =
        some (n + pos, (l.getD pos tx0).outputs.getD p.index out0) := by
  induction l with
  | nil => simp at hsome
  | cons tx rest ih =>
    by_cases h : tx_match p tx
    · refine ⟨0, by simp, by simpa using h,
        fun q hq => absurd hq (Nat.not_lt_zero q), ?_⟩
      intro n
      simp [find_output_in_txs, if_pos h]
    · have hrest : ∃ t ∈ rest, tx_match p t := by
        obtain ⟨t, ht, hm⟩ := hsome
        rcases List.mem_cons.mp ht with rfl | ht2
        · exact absurd hm h
        · exact ⟨t, ht2, hm⟩
      obtain ⟨pos, hlen, hm, hfirst, hfind⟩ := ih hrest
      refine ⟨pos + 1, by simpa using Nat.succ_lt_succ hlen,
        by simpa using hm, ?_, ?_⟩
      · intro q hq
        cases q with
        | zero => simpa using h
        | succ q => exact fun hc => hfirst q (by omega) (by simpa using hc)
      · intro n
        have h2 := hfind (n + 1)
        have hn : n + 1 + pos = n + (pos + 1) := by omega
        simp only [find_output_in_txs, if_neg h, List.getD_cons_succ]
        rw [h2, hn]

theorem find_output_in_txs_some_sound (p : OutPoint) (l : List Transaction)
    (n m : Nat) (out : Output)
    (h : find_output_in_txs p l n = some (m, out)) :
    ∃ pos, m = n + pos ∧ pos < l.length ∧ tx_match p (l.getD pos tx0) ∧
      out = (l.getD pos tx0).outputs.getD p.index out0 := by
  induction l generalizing n with
  | nil => simp [find_output_in_txs] at h
  | cons tx rest ih =>
    by_cases hm : tx_match p tx
    · simp only [find_output_in_txs, if_pos hm, Option.some.injEq,
        Prod.mk.injEq] at h
      exact ⟨0, by omega, by simp, by simpa using hm, by simp [h.1.symm, h.2.symm]⟩
    · simp only [find_output_in_txs, if_neg hm] at h
      obtain ⟨pos, hm0, hlen, hmm, hout⟩ := ih (n + 1) h
      exact ⟨pos + 1, by omega, by simpa using Nat.succ_lt_succ hlen,
        by simpa using hmm, by simpa using hout⟩

theorem find_output_from_eq_none (br : Branch) (p : OutPoint) (l : List Block)
    (hnone : ∀ b ∈ l, ∀ tx ∈ b.transactions, ¬ tx_match p tx) (n : Nat) :
    find_output_from br p n l = none := by
  induction l generalizing n with
  | nil => rfl
  | cons b rest ih =>
    simp only [find_output_from]
    rw [ih (fun b2 hb2 => hnone b2 (List.mem_cons_of_mem b hb2)) (n + 1),
      find_output_in_txs_eq_none p b.transactions
        (hnone b (List.mem_cons_self b rest)) 0]

theorem find_output_from_last (br : Branch) (p : OutPoint) :
    ∀ (l : List Block) (j n : Nat), j < l.length →
    (∃ tx ∈ (l.getD j block0).transactions, tx_match p tx) →
    (∀ k, j < k → k < l.length →
      ∀ tx ∈ (l.getD k block0).transactions, ¬ tx_match p tx) →
    ∃ pos, pos < (l.getD j block0).transactions.length ∧
      tx_match p ((l.getD j block0).transactions.getD pos tx0) ∧
      (∀ q, q < pos → ¬ tx_match p ((l.getD j block0).transactions.getD q tx0)) ∧
      find_output_from br p n l =
        some ⟨br.height_at (n + j), pos,
          ((l.getD j block0).transactions.getD pos tx0).outputs.getD p.index out0⟩ := by
  intro l
  induction l with
  | nil => intro j n hj _ _; simp at hj
  | cons b rest ih =>
    intro j n hj hmatch hafter
    cases j with
    | zero =>
      have hrestnone : ∀ b2 ∈ rest, ∀ tx ∈ b2.transactions, ¬ tx_match p tx := by
        intro b2 hb2
        obtain ⟨⟨k, hk⟩, hget⟩ := List.mem_iff_get.mp hb2
        have hgd : (b :: rest).getD (k + 1) block0 = b2 := by
          rw [List.getD_cons_succ, list_getD_eq_get rest block0 k hk]
          exact hget
        have h3 := hafter (k + 1) (by omega) (by simp; omega)
        rw [hgd] at h3
        exact h3
      have hrec : find_output_from br p (n + 1) rest = none :=
        find_output_from_eq_none br p rest hrestnone (n + 1)
      have hb : ∃ tx ∈ b.transactions, tx_match p tx := by simpa using hmatch
      obtain ⟨pos, hlen, hm, hfirst, hfind⟩ := find_output_in_txs_first p b.transactions hb
      refine ⟨pos, by simpa using hlen, by simpa using hm,
        by simpa using hfirst, ?_⟩
      simp only [find_output_from]
      rw [hrec, hfind 0]
      simp
    | succ j2 =>
      have hj2 : j2 < rest.length := by simpa using hj
      have hmatch2 : ∃ tx ∈ (rest.getD j2 block0).transactions, tx_match p tx := by
        simpa [List.getD_cons_succ] using hmatch
      have hafter2 : ∀ k, j2 < k → k < rest.length →
          ∀ tx ∈ (rest.getD k block0).transactions, ¬ tx_match p tx := by
        intro k hk1 hk2 tx htx
        exact hafter (k + 1) (by omega) (by simp; omega) tx
          (by simpa [List.getD_cons_succ] using htx)
      obtain ⟨pos, hlen, hm, hfirst, hfind⟩ := ih j2 (n + 1) hj2 hmatch2 hafter2
      refine ⟨pos, by simpa [List.getD_cons_succ] using hlen,
        by simpa [List.getD_cons_succ] using hm,
        by simpa [List.getD_cons_succ] using hfirst, ?_⟩
      simp only [find_output_from]
      rw [hfind]
      have hn : n + 1 + j2 = n + (j2 + 1) := by omega
      simp [List.getD_cons_succ, hn]

theorem find_output_from_some_sound (br : Branch) (p : OutPoint) :
    ∀ (l : List Block) (n : Nat) (f : FindResult),
    find_output_from br p n l = some f →
    ∃ idx, idx < l.length ∧ f.height = br.height_at (n + idx) ∧
      f.position < (l.getD idx block0).transactions.length ∧
      tx_match p ((l.getD idx block0).transactions.getD f.position tx0) ∧
      f.out = ((l.getD idx block0).transactions.getD f.position tx0).outputs.getD
        p.index out0 := by
  intro l
  induction l with
  | nil => intro n f h; simp [find_output_from] at h
  | cons b rest ih =>
    intro n f h
    simp only [find_output_from] at h
    cases hrec : find_output_from br p (n + 1) rest with
    | some r =>
      rw [hrec] at h
      simp only [Option.some.injEq] at h
      obtain ⟨idx, hidx, hh, hp, hm, ho⟩ := ih (n + 1) r hrec
      refine ⟨idx + 1, by simpa using Nat.succ_lt_succ hidx, ?_, ?_, ?_, ?_⟩
      · rw [← h, hh]; congr 1; omega
      · rw [← h]; simpa [List.getD_cons_succ] using hp
      · rw [← h]; simpa [List.getD_cons_succ] using hm
      · rw [← h]; simpa [List.getD_cons_succ] using ho
    | none =>
      rw [hrec] at h
      cases htx : find_output_in_txs p b.transactions 0 with
      | none => rw [htx] at h; simp at h
      | some pr =>
        obtain ⟨position, out⟩ := pr
        rw [htx] at h
        simp only [Option.some.injEq] at h
        obtain ⟨pos, hm0, hlen, hmm, hout⟩ :=
          find_output_in_txs_some_sound p b.transactions 0 position out htx
        have hpos : position = pos := by omega
        refine ⟨0, by simp, ?_, ?_, ?_, ?_⟩
        · rw [← h]; simp
        · rw [← h]; simpa [hpos] using hlen
        · rw [← h]; simpa [hpos] using hmm
        · rw [← h]; simpa [hpos] using hout

/-! ## Claim theorems -/

/-- C9: for every branch and every index `i` in `[0, size())`,
`index_of(height_at(i)) == i`, the two translators being
`(height - fork_height) - 1` and `(index + fork_height) + 1` over
underflow-flooring natural subtraction. -/
theorem index_of_height_at_roundtrip (br : Branch) (i : Nat)
    (_hi : i < br.size) : br.index_of (br.height_at i) = i := by
  unfold Branch.index_of Branch.height_at
  omega

theorem index_of_height_at_roundtrip_witness :
    0 < exBranch.size ∧ exBranch.index_of (exBranch.height_at 0) = 0 :=
  ⟨by decide, index_of_height_at_roundtrip exBranch 0 (by decide)⟩

/-- C10: the resolution result of `populate_prevout` depends only on the
branch and the queried outpoint, never on the query's prior validation
state: the cache and height fields are unconditionally reset first, so two
runs from any two prior states agree on the resulting cache, height (and
hence found/not-found status). -/
theorem populate_prevout_prior_state_independent (br : Branch) (p : OutPoint)
    (v1 v2 : Validation) :
    (br.populate_prevout p v1).cache = (br.populate_prevout p v2).cache ∧
    (br.populate_prevout p v1).height = (br.populate_prevout p v2).height := by
  unfold Branch.populate_prevout
  by_cases hn : p.is_null = true
  · simp [hn]
  · cases hg : br.get_output p <;> simp [hn, hg]

/-- C6: `push_front` on an empty branch accepts any block unconditionally
as the sole element returning true; on a non-empty branch it prepends at
the oldest end and returns true iff the current oldest block's declared
previous-block hash equals the candidate's hash, otherwise it returns
false with the branch unchanged. -/
theorem push_front_accepts_iff (br : Branch) (b : Block) :
    (br.blocks_ = [] → br.push_front b = ({ br with blocks_ := [b] }, true)) ∧
    (∀ f rest, br.blocks_ = f :: rest →
      (f.header.previous_block_hash = b.hash →
        br.push_front b = ({ br with blocks_ := b :: f :: rest }, true)) ∧
      (f.header.previous_block_hash ≠ b.hash →
        br.push_front b = (br, false))) := by
  constructor
  · intro he
    simp [Branch.push_front, Branch.empty, he]
  · intro f rest hfr
    constructor
    · intro hl
      simp [Branch.push_front, Branch.empty, Branch.linked, hfr, hl]
    · intro hl
      simp [Branch.push_front, Branch.empty, Branch.linked, hfr, hl]

theorem push_front_accepts_iff_witness :
    (Branch.new 3).push_front exBlockTip = (⟨3, [exBlockTip]⟩, true) ∧
    exBranch.push_front exBlockExt =
      (⟨5, [exBlockExt, exBlockOld, exBlockTip]⟩, true) ∧
    exBranch.push_front exBlockBad = (exBranch, false) := by
  refine ⟨?_, ?_, ?_⟩
  · exact (push_front_accepts_iff (Branch.new 3) exBlockTip).1 rfl
  · exact ((push_front_accepts_iff exBranch exBlockExt).2 exBlockOld
      [exBlockTip] rfl).1 (by decide)
  · exact ((push_front_accepts_iff exBranch exBlockBad).2 exBlockOld
      [exBlockTip] rfl).2 (by decide)

/-- C7: for every non-empty branch, growth rejects a candidate whose hash
differs from the current oldest block's declared previous hash, and the
branch state is left completely unchanged on rejection. -/
theorem push_front_rejects_unlinked (br : Branch) (b : Block) (f : Block)
    (rest : List Block) (hfr : br.blocks_ = f :: rest)
    (hnl : f.header.previous_block_hash ≠ b.hash) :
    br.push_front b = (br, false) := by
  simp [Branch.push_front, Branch.empty, Branch.linked, hfr, hnl]

theorem push_front_rejects_unlinked_witness :
    exBranch.push_front exBlockBad = (exBranch, false) :=
  push_front_rejects_unlinked exBranch exBlockBad exBlockOld [exBlockTip]
    rfl (by decide)

/-- C8: each of the four header accessors returns false leaving the
caller's slot untouched when `height <= fork_height` or when the
translated index has no corresponding block; otherwise it writes the
corresponding field (bits, version, timestamp, block hash) of the block
at that absolute height and returns true. -/
theorem header_accessors_spec (br : Branch) (h s : Nat) (sh : Hash) :
    ((h ≤ br.height_ ∨ br.blocks_.get? (br.index_of h) = none) →
      br.get_bits s h = (s, false) ∧ br.get_version s h = (s, false) ∧
      br.get_timestamp s h = (s, false) ∧ br.get_block_hash sh h = (sh, false)) ∧
    (∀ b, br.height_ < h → br.blocks_.get? (br.index_of h) = some b →
      br.get_bits s h = (b.header.bits, true) ∧
      br.get_version s h = (b.header.version, true) ∧
      br.get_timestamp s h = (b.header.timestamp, true) ∧
      br.get_block_hash sh h = (b.hash, true)) := by
  constructor
  · rintro (hle | hnone)
    · simp [Branch.get_bits, Branch.get_version, Branch.get_timestamp,
        Branch.get_block_hash, if_pos hle]
    · by_cases hle : h ≤ br.height_
      · simp [Branch.get_bits, Branch.get_version, Branch.get_timestamp,
          Branch.get_block_hash, if_pos hle]
      · rw [List.get?_eq_getElem?] at hnone
        simp [Branch.get_bits, Branch.get_version, Branch.get_timestamp,
          Branch.get_block_hash, if_neg hle, hnone]
  · intro b hlt hsome
    have hle : ¬ h ≤ br.height_ := by omega
    rw [List.get?_eq_getElem?] at hsome
    simp [Branch.get_bits, Branch.get_version, Branch.get_timestamp,
      Branch.get_block_hash, if_neg hle, hsome]

theorem header_accessors_spec_witness :
    (exBranch.get_bits 1000 6 = (21, true) ∧
     exBranch.get_version 1000 6 = (31, true) ∧
     exBranch.get_timestamp 1000 6 = (41, true) ∧
     exBranch.get_block_hash 500 6 = (10, true)) ∧
    (exBranch.get_bits 1000 5 = (1000, false) ∧
     exBranch.get_version 1000 5 = (1000, false) ∧
     exBranch.get_timestamp 1000 5 = (1000, false) ∧
     exBranch.get_block_hash 500 5 = (500, false)) := by
  constructor
  · exact (header_accessors_spec exBranch 6 1000 500).2 exBlockOld
      (by decide) (by decide)
  · exact (header_accessors_spec exBranch 5 1000 500).1 (Or.inl (by decide))

/-- C3: `populate_spent` reports unspent-and-unconfirmed for branches of
fewer than two blocks; otherwise `spent` is true iff some input of some
non-first transaction of some non-oldest block (the tip included)
references the queried outpoint, and `confirmed` always equals `spent`. -/
theorem populate_spent_characterization (br : Branch) (p : OutPoint)
    (v : Validation) :
    (br.size < 2 →
      (br.populate_spent p v).spent = false ∧
      (br.populate_spent p v).confirmed = false) ∧
    ((br.populate_spent p v).spent = true ↔
      (2 ≤ br.size ∧ ∃ b ∈ br.blocks_.drop 1, ∃ tx ∈ b.transactions.drop 1,
        ∃ inp ∈ tx.inputs, inp.previous_output = p)) ∧
    (br.populate_spent p v).confirmed = (br.populate_spent p v).spent := by
  unfold Branch.populate_spent
  by_cases hlt : br.size < 2
  · refine ⟨fun _ => by simp [hlt], ?_, by simp [hlt]⟩
    rw [if_pos hlt]
    constructor
    · intro hfalse; simp at hfalse
    · rintro ⟨h2, -⟩; omega
  · have h2 : 2 ≤ br.size := by omega
    refine ⟨fun hc => absurd hc hlt, ?_, by simp [hlt]⟩
    rw [if_neg hlt]
    simp [List.any_eq_true, decide_eq_true_eq, h2]

theorem populate_spent_characterization_witness :
    ((Branch.new 0).populate_spent exPoint exValidation).spent = false ∧
    (exBranchSpend.populate_spent exSpendPoint exValidation).spent = true := by
  constructor
  · exact ((populate_spent_characterization (Branch.new 0) exPoint
      exValidation).1 (by decide)).1
  · exact ((populate_spent_characterization exBranchSpend exSpendPoint
      exValidation).2.1).mpr (by decide)

/-- C4 counterexample: the claim says `work()` equals the exact
(untruncated) sum of the claimed proof values; on a branch of two blocks
each claiming proof `2 ^ 255` — both representable `uint256_t` values —
the accumulator wraps modulo `2 ^ 256` and `work()` is 0, not `2 ^ 256`. -/
theorem work_exact_sum_counterexample :
    exBranch.work ≠ (exBranch.blocks_.map Block.proof).sum := by decide

theorem foldl_work_eq (l : List Block) :
    ∀ a : Nat, a < Branch.uint256_mod →
      l.foldl (fun total b => (total + b.proof) % Branch.uint256_mod) a =
        (a + (l.map Block.proof).sum) % Branch.uint256_mod := by
  induction l with
  | nil => intro a ha; simp [Nat.mod_eq_of_lt ha]
  | cons b rest ih =>
    intro a ha
    simp only [List.foldl_cons, List.map_cons, List.sum_cons]
    rw [ih ((a + b.proof) % Branch.uint256_mod)
      (Nat.mod_lt _ (by norm_num [Branch.uint256_mod]))]
    rw [Nat.mod_add_mod]
    congr 1
    omega

/-- C4 amended: `work()` equals the sum of the blocks' claimed proof
values reduced modulo `2 ^ 256` (the `uint256_t` accumulation width); it
equals the exact sum whenever that sum fits in 256 bits, and it is 0 for
the empty branch. -/
theorem work_eq_sum_mod (br : Branch) :
    br.work = (br.blocks_.map Block.proof).sum % Branch.uint256_mod ∧
    ((br.blocks_.map Block.proof).sum < Branch.uint256_mod →
      br.work = (br.blocks_.map Block.proof).sum) ∧
    (br.blocks_ = [] → br.work = 0) := by
  have h := foldl_work_eq br.blocks_ 0 (by norm_num [Branch.uint256_mod])
  refine ⟨?_, ?_, ?_⟩
  · unfold Branch.work; rw [h]; simp
  · intro hlt
    unfold Branch.work
    rw [h, Nat.zero_add, Nat.mod_eq_of_lt hlt]
  · intro he
    unfold Branch.work
    rw [he]
    rfl

theorem work_eq_sum_mod_witness :
    exBranchSpend.work = (exBranchSpend.blocks_.map Block.proof).sum ∧
    (Branch.new 7).work = 0 :=
  ⟨(work_eq_sum_mod exBranchSpend).2.1 (by decide),
   (work_eq_sum_mod (Branch.new 7)).2.2 rfl⟩

/-- C1: for every branch and non-null output reference, `populate_prevout`
scans newest-to-oldest and returns on the first matching transaction
(earliest matching position within the newest matching block `j`), so the
output recorded in the cache is the one from the newest matching block. -/
theorem populate_prevout_newest_match (br : Branch) (p : OutPoint)
    (v : Validation) (hnull : p.is_null = false) (j : Nat)
    (hj : j < br.blocks_.length)
    (hmatch : ∃ tx ∈ (br.blocks_.getD j block0).transactions, tx_match p tx)
    (hnewest : ∀ k, j < k → k < br.blocks_.length →
      ∀ tx ∈ (br.blocks_.getD k block0).transactions, ¬ tx_match p tx) :
    ∃ pos, pos < (br.blocks_.getD j block0).transactions.length ∧
      tx_match p ((br.blocks_.getD j block0).transactions.getD pos tx0) ∧
      (∀ q, q < pos →
        ¬ tx_match p ((br.blocks_.getD j block0).transactions.getD q tx0)) ∧
      br.get_output p = some ⟨br.height_at j, pos,
        ((br.blocks_.getD j block0).transactions.getD pos tx0).outputs.getD
          p.index out0⟩ ∧
      (br.populate_prevout p v).cache =
        some (((br.blocks_.getD j block0).transactions.getD pos tx0).outputs.getD
          p.index out0) := by
  obtain ⟨pos, hlen, hm, hfirst, hfind⟩ :=
    find_output_from_last br p br.blocks_ j 0 hj hmatch hnewest
  rw [Nat.zero_add] at hfind
  have hget : br.get_output p = some ⟨br.height_at j, pos,
      ((br.blocks_.getD j block0).transactions.getD pos tx0).outputs.getD
        p.index out0⟩ := hfind
  refine ⟨pos, hlen, hm, hfirst, hget, ?_⟩
  simp [Branch.populate_prevout, hnull, hget]

theorem populate_prevout_newest_match_witness :
    (exBranch.populate_prevout exPoint exValidation).cache = some exOut := by
  obtain ⟨pos, hlen, hm, hfirst, hget, hcache⟩ :=
    populate_prevout_newest_match exBranch exPoint exValidation rfl 1
      (by decide) (by decide)
      (fun k hk1 hk2 =>
        absurd (show k < 2 by simpa [exBranch] using hk2) (by omega))
  have hl1 : (exBranch.blocks_.getD 1 block0).transactions.length = 1 := by decide
  rw [hl1] at hlen
  have hpos : pos = 0 := by omega
  rw [hpos] at hcache
  exact hcache.trans (by decide)

/-- C2: postcondition of `populate_prevout`: for the null coinbase marker
the result is not-found with height unset independently of the branch; on
a find the cache holds the matching transaction's output at the referenced
index and the height equals the containing block's absolute height iff the
match is the block's first transaction; with no match in the branch the
result stays not-found with height unset. -/
theorem populate_prevout_postcondition (br : Branch) (p : OutPoint)
    (v : Validation) :
    (p.is_null = true →
      (br.populate_prevout p v).cache = none ∧
      (br.populate_prevout p v).height = none ∧
      ∀ br2 : Branch, br.populate_prevout p v = br2.populate_prevout p v) ∧
    (p.is_null = false →
      (∀ f, br.get_output p = some f →
        (br.populate_prevout p v).cache = some f.out ∧
        ((br.populate_prevout p v).height = some f.height ↔ f.position = 0) ∧
        ∃ idx, idx < br.blocks_.length ∧ f.height = br.height_at idx ∧
          f.position < (br.blocks_.getD idx block0).transactions.length ∧
          tx_match p ((br.blocks_.getD idx block0).transactions.getD
            f.position tx0) ∧
          f.out = ((br.blocks_.getD idx block0).transactions.getD
            f.position tx0).outputs.getD p.index out0) ∧
      ((∀ b ∈ br.blocks_, ∀ tx ∈ b.transactions, ¬ tx_match p tx) →
        (br.populate_prevout p v).cache = none ∧
        (br.populate_prevout p v).height = none)) := by
  constructor
  · intro hn
    refine ⟨by simp [Branch.populate_prevout, hn],
      by simp [Branch.populate_prevout, hn], ?_⟩
    intro br2
    simp [Branch.populate_prevout, hn]
  · intro hn
    constructor
    · intro f hf
      obtain ⟨idx, hidx, hh, hp, hm, ho⟩ :=
        find_output_from_some_sound br p br.blocks_ 0 f hf
      rw [Nat.zero_add] at hh
      refine ⟨by simp [Branch.populate_prevout, hn, hf], ?_,
        idx, hidx, hh, hp, hm, ho⟩
      by_cases hp0 : f.position = 0
      · simp [Branch.populate_prevout, hn, hf, hp0]
      · simp [Branch.populate_prevout, hn, hf, hp0]
    · intro hnone
      have hgo : br.get_output p = none :=
        find_output_from_eq_none br p br.blocks_ hnone 0
      constructor
      · simp [Branch.populate_prevout, hn, hgo]
      · simp [Branch.populate_prevout, hn, hgo]

theorem populate_prevout_postcondition_witness :
    (exBranch.populate_prevout exNullPoint exValidation).cache = none ∧
    (exBranch.populate_prevout exPoint exValidation).cache = some exOut ∧
    (exBranch.populate_prevout exPoint exValidation).height = some 7 := by
  refine ⟨?_, ?_, ?_⟩
  · exact ((populate_prevout_postcondition exBranch exNullPoint
      exValidation).1 rfl).1
  · exact (((populate_prevout_postcondition exBranch exPoint
      exValidation).2 rfl).1 ⟨7, 0, exOut⟩ (by decide)).1
  · exact (((populate_prevout_postcondition exBranch exPoint
      exValidation).2 rfl).1 ⟨7, 0, exOut⟩ (by decide)).2.1.mpr rfl

/-- C5: every branch state reachable from `new(fork_height)` through the
mutating operations satisfies the linkage invariant: each block's declared
previous-block hash equals the hash of the block just below (older than)
it in the branch. -/
theorem push_front_preserves_linkage (br : Branch) (hr : Reachable br) :
    ∀ i, i + 1 < br.blocks_.length →
      (br.blocks_.getD (i + 1) block0).header.previous_block_hash =
        (br.blocks_.getD i block0).hash := by
  induction hr with
  | base h => intro i hi; simp [Branch.new] at hi
  | grow br2 b hr2 ih =>
    intro i hi
    by_cases hacc : (br2.empty || br2.linked b) = true
    · have hfst : (br2.push_front b).fst =
          { br2 with blocks_ := b :: br2.blocks_ } := by
        simp [Branch.push_front, hacc]
      rw [hfst] at hi ⊢
      cases i with
      | zero =>
        cases hbl : br2.blocks_ with
        | nil => rw [hbl] at hi; simp at hi
        | cons f rest =>
          have hemp : br2.empty = false := by simp [Branch.empty, hbl]
          have hlink : br2.linked b = true := by simpa [hemp] using hacc
          have heq : f.header.previous_block_hash = b.hash := by
            simpa [Branch.linked, hbl] using hlink
          simp [hbl, heq]
      | succ i2 =>
        have h2 := ih i2 (by simpa using hi)
        simpa [List.getD_cons_succ] using h2
    · have hfst : (br2.push_front b).fst = br2 := by
        simp [Branch.push_front, hacc]
      rw [hfst] at hi ⊢
      exact ih i hi
  | set br2 h hr2 ih =>
    intro i hi
    have hbl : (br2.set_height h).blocks_ = br2.blocks_ := rfl
    rw [hbl] at hi ⊢
    exact ih i hi

theorem push_front_preserves_linkage_witness :
    (exBranch.blocks_.getD 1 block0).header.previous_block_hash =
      (exBranch.blocks_.getD 0 block0).hash := by
  have h0 : Reachable (Branch.new 5) := Reachable.base 5
  have e1 : ((Branch.new 5).push_front exBlockTip).fst =
      (⟨5, [exBlockTip]⟩ : Branch) := by decide
  have h1 : Reachable (⟨5, [exBlockTip]⟩ : Branch) :=
    e1 ▸ Reachable.grow (Branch.new 5) exBlockTip h0
  have e2 : ((⟨5, [exBlockTip]⟩ : Branch).push_front exBlockOld).fst =
      exBranch := by decide
  have h2 : Reachable exBranch :=
    e2 ▸ Reachable.grow (⟨5, [exBlockTip]⟩ : Branch) exBlockOld h1
  exact push_front_preserves_linkage exBranch h2 0 (by decide)

end BranchSpec
